import Mathlib

/-!
# Verification of the `update-api.js` extraction / regeneration pipeline

A shallow embedding of the source-to-metadata extraction and code-regeneration
pipeline of `update-api.js`: the JSDoc-paired matcher, the bare-method line
scanner, the merger/deduplicator, the signature synthesizer, the description
resolver, the code emitter and the anchor patcher.  Text is modelled as
`List Char`; each definition mirrors the corresponding JavaScript function,
including the exact backtracking behaviour of the regular expressions it uses.
-/

namespace UpdateApi

/-- The brace characters, defined by code point to keep them out of literals. -/
def lbrace : Char := Char.ofNat 123

def rbrace : Char := Char.ofNat 125

def dollarC : Char := Char.ofNat 36

def backtickC : Char := Char.ofNat 96

def squoteC : Char := Char.ofNat 39

def dquoteC : Char := Char.ofNat 34

/-- JavaScript `\s` for the ASCII range: space, tab, LF, CR, VT, FF. -/
def isJsWs (c : Char) : Bool :=
  c = ' ' || c = '\t' || c = '\n' || c = '\r' || c = Char.ofNat 11 || c = Char.ofNat 12

/-- First character of a JavaScript identifier: `[a-zA-Z_$]`. -/
def isIdentStart (c : Char) : Bool :=
  (('a' ≤ c && c ≤ 'z') || ('A' ≤ c && c ≤ 'Z') || c = '_' || c = dollarC)

/-- Subsequent character of a JavaScript identifier: `[a-zA-Z0-9_$]`. -/
def isIdentChar (c : Char) : Bool :=
  isIdentStart c || ('0' ≤ c && c ≤ '9')

/-- `String.prototype.trim` (ASCII whitespace). -/
def jsTrim (s : List Char) : List Char :=
  ((s.dropWhile isJsWs).reverse.dropWhile isJsWs).reverse

/-- `String.prototype.startsWith`. -/
def hasPrefixL (pre s : List Char) : Bool := List.isPrefixOf pre s

/-- `String.prototype.includes`: substring occurrence. -/
def containsSub (needle : List Char) : List Char → Bool
  | [] => needle.isEmpty
  | c :: t => hasPrefixL needle (c :: t) || containsSub needle t

/-- Skip a run of JavaScript whitespace (greedy `\s*`). -/
def skipWs (s : List Char) : List Char := s.dropWhile isJsWs

/-- `content.replace(/\r\n/g, '\n')`. -/
def normalizeNewlines : List Char → List Char
  | '\r' :: '\n' :: rest => '\n' :: normalizeNewlines rest
  | c :: rest => c :: normalizeNewlines rest
  | [] => []

/-- `String.prototype.split(sep)` for a one-character separator. -/
def splitOnChar (sep : Char) : List Char → List (List Char)
  | [] => [[]]
  | c :: rest =>
      if c = sep then [] :: splitOnChar sep rest
      else
        match splitOnChar sep rest with
        | t :: ts => (c :: t) :: ts
        | [] => [[c]]

/-- A method descriptor, one per extracted method (§3 of the design). -/
structure Method where
  name : List Char
  params : List Char
  isAsync : Bool
  description : List Char
  jsdoc : Option (List Char)
deriving DecidableEq, Repr

/-- The fixed table of well-known descriptions in `generateMethodDescription`. -/
def descTable : List (List Char × List Char) :=
  [ (("init").data, ("Initialize the SypnexAPI instance").data),
    (("getSetting").data, ("Get an application setting value").data),
    (("setSetting").data, ("Set an application setting value").data),
    (("getAllSettings").data, ("Get all application settings").data),
    (("deleteSetting").data, ("Delete an application setting").data),
    (("getVirtualFileStats").data, ("Get virtual file system statistics").data),
    (("listVirtualFiles").data, ("List files in virtual file system").data),
    (("readVirtualFile").data, ("Read a file from virtual file system").data),
    (("writeVirtualFile").data, ("Write a file to virtual file system").data),
    (("deleteVirtualItem").data, ("Delete a file or folder from virtual file system").data),
    (("connectSocket").data, ("Connect to a WebSocket").data),
    (("sendMessage").data, ("Send a message through WebSocket").data),
    (("isInitialized").data, ("Check if the API is initialized").data),
    (("getAppId").data, ("Get the current application ID").data),
    (("showNotification").data, ("Show a notification to the user").data),
    (("logInfo").data, ("Log an info message").data),
    (("logError").data, ("Log an error message").data),
    (("executeTerminalCommand").data, ("Execute a terminal command").data),
    (("readVirtualFileText").data, ("Read a text file from virtual file system").data),
    (("readVirtualFileJSON").data, ("Read a JSON file from virtual file system").data),
    (("writeVirtualFileJSON").data, ("Write a JSON file to virtual file system").data),
    (("createVirtualFolder").data, ("Create a folder in virtual file system").data),
    (("createVirtualFile").data, ("Create a file in virtual file system").data),
    (("getVirtualItemInfo").data, ("Get information about a virtual file system item").data),
    (("virtualItemExists").data, ("Check if a virtual file system item exists").data) ]

/-- `generateMethodDescription`: table lookup with a generic fallback. -/
def generateMethodDescription (name : List Char) : List Char :=
  match descTable.find? (fun p => decide (p.1 = name)) with
  | some p => p.2
  | none => name ++ (" method from Sypnex API").data

/-- One parameter token in `generateMethodSignature`'s `map` callback. -/
def convertParam (param : List Char) : List Char :=
  let trimmed := jsTrim param
  if trimmed = [] then []
  else if trimmed.contains '=' then
    jsTrim (trimmed.takeWhile (fun c => c ≠ '=')) ++ ("?: any").data
  else trimmed ++ (": any").data

/-- `generateMethodSignature`: JS parameter list to a TypeScript-like signature. -/
def generateMethodSignature (m : Method) : List Char :=
  let core :=
    if m.params = [] then []
    else
      List.intercalate ((", ").data)
        (((splitOnChar ',' m.params).map convertParam).filter (fun p => !p.isEmpty))
  m.name ++ ['('] ++ core ++ [')'] ++
    (if m.isAsync then (": Promise<any>").data else (": any").data)

/-! ## The method-definition pattern `(async\s+)?IDENT\s*\(([^)]*)\)\s*\{`

This sub-pattern is shared by `jsdocMethodPattern` and `simpleMethodPattern`.
Its backtracking is deterministic: the identifier and whitespace runs are
maximal (shrinking them can never help), and the optional `async\s+` group is
tried first, falling back to a match starting at `async` itself. -/

/-- `\(([^)]*)\)\s*\{`: capture the run of non-`)` characters, require `)`,
whitespace, `{`.  Returns the captured parameter text and the rest after `{`. -/
def matchParen (cs : List Char) : Option (List Char × List Char) :=
  match cs with
  | '(' :: cs3 =>
      let params := cs3.takeWhile (fun c => c ≠ ')')
      match cs3.dropWhile (fun c => c ≠ ')') with
      | ')' :: cs4 =>
          match skipWs cs4 with
          | b :: cs5 => if b = lbrace then some (params, cs5) else none
          | [] => none
      | _ => none
  | _ => none

/-- `IDENT\s*\(([^)]*)\)\s*\{` at the head of `cs`. -/
def identParen (cs : List Char) : Option (List Char × List Char × List Char) :=
  match cs with
  | [] => none
  | c :: _ =>
      if isIdentStart c then
        let name := cs.takeWhile isIdentChar
        (matchParen (skipWs (cs.dropWhile isIdentChar))).map (fun pr => (name, pr.1, pr.2))
      else none

/-- A successful occurrence of the shared method-definition sub-pattern. -/
structure CoreM where
  isAsync : Bool
  name : List Char
  params : List Char
  rest : List Char
deriving DecidableEq, Repr

/-- `(async\s+)?IDENT\s*\(([^)]*)\)\s*\{` at the head of `cs`. -/
def matchAt (cs : List Char) : Option CoreM :=
  let asyncOk := hasPrefixL (("async").data) cs &&
    (match cs.drop 5 with | c :: _ => isJsWs c | [] => false)
  if asyncOk then
    match identParen (skipWs (cs.drop 5)) with
    | some (n, p, r) => some ⟨true, n, p, r⟩
    | none => (identParen cs).map (fun x => ⟨false, x.1, x.2.1, x.2.2⟩)
  else (identParen cs).map (fun x => ⟨false, x.1, x.2.1, x.2.2⟩)

/-! ## The JSDoc-paired matcher
`/(\/\*\*[\s\S]*?\*\/)\s*(async\s+)?IDENT\s*\(([^)]*)\)\s*\{/g` -/

/-- One match of `jsdocMethodPattern`. -/
structure JMatch where
  jsdoc : List Char
  isAsync : Bool
  name : List Char
  params : List Char
  rest : List Char
deriving DecidableEq, Repr

/-- Lazy search for a `*/` closer (after an opening `/**`) such that the rest
of the pattern matches: candidate closers are tried left to right. -/
def tryCloses : Nat → List Char → List Char → Option (List Char × CoreM)
  | 0, _, _ => none
  | fuel + 1, acc, rest =>
      if hasPrefixL (("*/").data) rest then
        match matchAt (skipWs (rest.drop 2)) with
        | some cm => some (("/**").data ++ acc ++ ("*/").data, cm)
        | none =>
            match rest with
            | c :: rest' => tryCloses fuel (acc ++ [c]) rest'
            | [] => none
      else
        match rest with
        | c :: rest' => tryCloses fuel (acc ++ [c]) rest'
        | [] => none

/-- Attempt `jsdocMethodPattern` at the head of `cs`. -/
def tryJsdocAt (cs : List Char) : Option JMatch :=
  if hasPrefixL (("/**").data) cs then
    match tryCloses (cs.length + 1) [] (cs.drop 3) with
    | some (block, cm) => some ⟨block, cm.isAsync, cm.name, cm.params, cm.rest⟩
    | none => none
  else none

/-- The `exec` loop of `jsdocMethodPattern`: leftmost matches, each search
resuming after the end of the previous match. -/
def jsdocScanAux : Nat → List Char → List JMatch
  | 0, _ => []
  | _ + 1, [] => []
  | fuel + 1, text@(_ :: rest) =>
      match tryJsdocAt text with
      | some jm => jm :: jsdocScanAux fuel jm.rest
      | none => jsdocScanAux fuel rest

def jsdocScan (text : List Char) : List JMatch := jsdocScanAux (text.length + 1) text

/-! ## Description extraction from a JSDoc block
`jsdocComment.match(/\/\*\*\s*\n?\s*\*?\s*([^@\n*]+)/)` — the prefix
`\s*\n?\s*\*?\s*` consumes whitespace and at most one `*`; backtracking
prefers the longest such prefix and retreats one position at a time, so the
captured group starts at the largest reachable offset whose character is not
`@`, `*` or a newline. -/

def badDescChar (c : Char) : Bool := c = '@' || c = '\n' || c = '*'

/-- Walk backwards through the consumed prefix looking for the last character
usable as the start of the captured group. -/
def descBack : List Char → List Char → Option (List Char)
  | [], _ => none
  | c :: preRev, tailAcc =>
      if badDescChar c then descBack preRev (c :: tailAcc)
      else some ((c :: tailAcc).takeWhile (fun x => !badDescChar x))

/-- The match attempt at one `/**` occurrence; `T` is the text after `/**`. -/
def descAt (T : List Char) : Option (List Char) :=
  let w1 := T.takeWhile isJsWs
  let r1 := T.dropWhile isJsWs
  let star : List Char := match r1 with
    | c :: _ => if c = '*' then ['*'] else []
    | [] => []
  let r2 := r1.drop star.length
  let w2 := r2.takeWhile isJsWs
  let r3 := r2.dropWhile isJsWs
  let pre := w1 ++ star ++ w2
  match r3 with
  | c :: _ =>
      if badDescChar c then descBack pre.reverse r3
      else some (r3.takeWhile (fun x => !badDescChar x))
  | [] => descBack pre.reverse r3

/-- `String.prototype.match` for the description pattern: scan for `/**`
occurrences left to right and return the first successful capture. -/
def descExtract : Nat → List Char → Option (List Char)
  | 0, _ => none
  | fuel + 1, s =>
      if hasPrefixL (("/**").data) s then
        match descAt (s.drop 3) with
        | some g => some g
        | none =>
            match s with
            | _ :: rest => descExtract fuel rest
            | [] => none
      else
        match s with
        | _ :: rest => descExtract fuel rest
        | [] => none

/-- `'` → `\'`, then `"` → `\"` (the two escaping `replace` calls). -/
def escQuotes : List Char → List Char
  | [] => []
  | c :: r =>
      if c = squoteC then '\\' :: squoteC :: escQuotes r
      else if c = dquoteC then '\\' :: dquoteC :: escQuotes r
      else c :: escQuotes r

/-- `replace(/\n/g, ' ')`. -/
def nlToSpace (s : List Char) : List Char := s.map (fun c => if c = '\n' then ' ' else c)

/-- `replace(/\s+/g, ' ')`. -/
def collapseWsAux : Bool → List Char → List Char
  | _, [] => []
  | prev, c :: r =>
      if isJsWs c then
        if prev then collapseWsAux true r else ' ' :: collapseWsAux true r
      else c :: collapseWsAux false r

def collapseWs (s : List Char) : List Char := collapseWsAux false s

/-- The description computed for a JSDoc-paired match (default table lookup,
overridden by a usable captured description line). -/
def descriptionFor (jsdoc name : List Char) : List Char :=
  match descExtract (jsdoc.length + 1) jsdoc with
  | some g =>
      if jsTrim g = [] then generateMethodDescription name
      else collapseWs (nlToSpace (escQuotes (jsTrim g)))
  | none => generateMethodDescription name

def mkJsdocMethod (jm : JMatch) : Method :=
  { name := jm.name
    params := jsTrim jm.params
    isAsync := jm.isAsync
    description := descriptionFor jm.jsdoc jm.name
    jsdoc := some jm.jsdoc }

/-! ## The bare-method scanner -/

/-- The line-skipping deny-list of the bare scanner (applied to the trimmed
line), exactly the disjunction in the source. -/
def isSkippedLine (line : List Char) : Bool :=
  hasPrefixL (("if").data) line || hasPrefixL (("for").data) line ||
  hasPrefixL (("while").data) line ||
  hasPrefixL (("catch").data) line || hasPrefixL (("try").data) line ||
  hasPrefixL (("switch").data) line ||
  (line.contains '=' && !(containsSub (("=>").data) line)) ||
  hasPrefixL (("//").data) line || hasPrefixL (("/*").data) line ||
  containsSub (("Object.assign").data) line ||
  containsSub (("console.").data) line ||
  (line.contains ':' && !(line.contains '('))

/-- Strip trailing JS whitespace. -/
def dropTrailingWs (s : List Char) : List Char := (s.reverse.dropWhile isJsWs).reverse

/-- The negative lookbehind `(?<!\/\*\*[\s\S]*?\*\/\s*)` at a position whose
preceding text is `before`: blocked iff the text before the position, with
trailing whitespace stripped, ends in `*/` preceded somewhere by `/**`. -/
def blockedAt (before : List Char) : Bool :=
  let noWs := dropTrailingWs before
  hasPrefixL (("*/").data).reverse noWs.reverse &&
    containsSub (("/**").data) (noWs.take (noWs.length - 2))

/-- The `exec` loop of `simpleMethodPattern` over one context string:
leftmost matches, skipping positions rejected by the lookbehind. -/
def scanSimpleAux : Nat → List Char → List Char → List CoreM
  | 0, _, _ => []
  | _ + 1, _, [] => []
  | fuel + 1, before, rest@(c :: rest') =>
      if blockedAt before then scanSimpleAux fuel (before ++ [c]) rest'
      else
        match matchAt rest with
        | some cm =>
            let k := rest.length - cm.rest.length
            cm :: scanSimpleAux fuel (before ++ rest.take k) (rest.drop k)
        | none => scanSimpleAux fuel (before ++ [c]) rest'

def scanSimple (context : List Char) : List CoreM :=
  scanSimpleAux (context.length + 1) [] context

def mkBareMethod (cm : CoreM) : Method :=
  { name := cm.name
    params := jsTrim cm.params
    isAsync := cm.isAsync
    description := generateMethodDescription cm.name
    jsdoc := none }

/-! ## The merger / deduplicator -/

/-- The keyword deny-list in the descriptor filter. -/
def keywordList : List (List Char) :=
  [("if").data, ("for").data, ("while").data, ("catch").data, ("try").data,
   ("switch").data, ("function").data, ("const").data, ("let").data,
   ("var").data, ("return").data, ("not").data, ("assign").data]

/-- `/^[a-zA-Z_$][a-zA-Z0-9_$]*$/.test(name)`. -/
def isValidIdent (name : List Char) : Bool :=
  match name with
  | [] => false
  | c :: rest => isIdentStart c && rest.all isIdentChar

/-- The full validity filter applied before pushing a descriptor. -/
def validName (name : List Char) : Bool :=
  !name.isEmpty && !(hasPrefixL (("_").data) name) &&
  !(decide (name = ("constructor").data)) &&
  !(keywordList.any (fun k => decide (k = name))) &&
  isValidIdent name

/-- Push a descriptor unless its name is invalid or already present. -/
def pushIfValid (methods : List Method) (m : Method) : List Method :=
  if validName m.name && !(methods.any (fun d => decide (d.name = m.name))) then
    methods ++ [m]
  else methods

/-- `lines.slice(i, i + 3).join('\n')`. -/
def contextAt (lines : List (List Char)) (i : Nat) : List Char :=
  List.intercalate (['\n']) ((lines.drop i).take 3)

/-- `extractMethodsFromApi`: the two extraction passes with in-line
deduplication, exactly as in the source. -/
def extractMethodsFromApi (apiContent : List Char) : List Method :=
  let fullContent := normalizeNewlines apiContent
  let methods1 :=
    (jsdocScan fullContent).foldl (fun acc jm => pushIfValid acc (mkJsdocMethod jm)) []
  let lines := splitOnChar '\n' fullContent
  (List.range lines.length).foldl
    (fun acc i =>
      let line := jsTrim (lines.getD i [])
      if isSkippedLine line then acc
      else (scanSimple (contextAt lines i)).foldl
        (fun a cm => pushIfValid a (mkBareMethod cm)) acc)
    methods1

/-! ## The code emitter -/

/-- One element of the emitted `sypnexApiMethods` array literal. -/
def methodEmit (m : Method) : List Char :=
  ("\t\x7b\n\t\tname: \x27").data ++ m.name ++
  (("\x27,\n\t\tsignature: \x27").data) ++ generateMethodSignature m ++
  (("\x27,\n\t\tdescription: \x27").data) ++ m.description ++
  (("\x27,\n\t\tisAsync: ").data) ++
  (if m.isAsync then ("true").data else ("false").data) ++
  ("\n\t\x7d").data

/-- `generateExtensionCode`. -/
def generateExtensionCode (methods : List Method) : List Char :=
  ("// Sypnex API method definitions (auto-generated)\nconst sypnexApiMethods = [\n").data
  ++ List.intercalate ((",\n").data) (methods.map methodEmit)
  ++ ("\n];").data

/-! ## The anchor patcher
`extensionContent.replace(/\/\/ Sypnex API method definitions[\s\S]*?^];/m, newCode)` -/

/-- The literal prefix of the anchor pattern (32 characters). -/
def anchorLit : List Char := ("// Sypnex API method definitions").data

/-- The ECMAScript LineTerminator set: with the `m` flag, `^` matches right
after LF, CR, U+2028 (LINE SEPARATOR) or U+2029 (PARAGRAPH SEPARATOR). -/
def isLineTerm (c : Char) : Bool :=
  c = '\n' || c = '\r' || c = Char.ofNat 0x2028 || c = Char.ofNat 0x2029

/-- Lazy search for the `^];` terminator; the flag records whether the current
position is at a line start (right after a LineTerminator).  Returns the
number of characters consumed up to and including `];`. -/
def findClose : Bool → List Char → Option Nat
  | _, [] => none
  | atLS, c :: cs =>
      if atLS = true ∧ c = ']' ∧ cs.head? = some ';' then some 2
      else Option.map (· + 1) (findClose (isLineTerm c) cs)

/-- Leftmost match of the anchor regex: start index and match length. -/
def findAnchor : List Char → Option (Nat × Nat)
  | [] => none
  | c :: cs =>
      if anchorLit.isPrefixOf (c :: cs) then
        match findClose false ((c :: cs).drop 32) with
        | some k => some (0, 32 + k)
        | none => Option.map (fun p => (p.1 + 1, p.2)) (findAnchor cs)
      else Option.map (fun p => (p.1 + 1, p.2)) (findAnchor cs)

/-- JavaScript replacement-string processing (`$$`, `$&`, the backtick form
for the text before the match, `$'` for the text after; anything else is
copied literally — the pattern has no capture groups). -/
def processRepl (before matched after : List Char) : List Char → List Char
  | [] => []
  | c :: rest =>
      if c = dollarC then
        match rest with
        | [] => [c]
        | d :: rest' =>
            if d = dollarC then dollarC :: processRepl before matched after rest'
            else if d = '&' then matched ++ processRepl before matched after rest'
            else if d = backtickC then before ++ processRepl before matched after rest'
            else if d = squoteC then after ++ processRepl before matched after rest'
            else c :: d :: processRepl before matched after rest'
      else c :: processRepl before matched after rest

/-- `String.prototype.replace` with a non-global regex: replace the first
match, leave the text untouched when there is none. -/
def replaceFirst (content newCode : List Char) : List Char :=
  match findAnchor content with
  | none => content
  | some (s, l) =>
      content.take s ++
      processRepl (content.take s) ((content.drop s).take l) (content.drop (s + l)) newCode ++
      content.drop (s + l)

/-- `updateExtensionFile`, as the pure transformation it performs on the
consumer file's content. -/
def updateExtensionFile (extensionContent newMethodsCode : List Char) : List Char :=
  replaceFirst extensionContent newMethodsCode

/-- One pipeline invocation: extract, emit, patch. -/
def runPipeline (apiContent extensionContent : List Char) : List Char :=
  updateExtensionFile extensionContent (generateExtensionCode (extractMethodsFromApi apiContent))

/-! ## Candidate streams

The two passes produce their candidates independently of the accumulated
descriptor list, so the extraction is equivalently a single guarded fold over
one candidate stream (JSDoc pass first, then the bare pass); these definitions
name that stream for the merge/deduplication theorems. -/

def jsdocCands (c : List Char) : List Method :=
  (jsdocScan (normalizeNewlines c)).map mkJsdocMethod

def lineCands (lines : List (List Char)) (i : Nat) : List Method :=
  if isSkippedLine (jsTrim (lines.getD i [])) then []
  else (scanSimple (contextAt lines i)).map mkBareMethod

def bareCands (c : List Char) : List Method :=
  let lines := splitOnChar '\n' (normalizeNewlines c)
  ((List.range lines.length).map (lineCands lines)).flatten

def allCandidates (c : List Char) : List Method := jsdocCands c ++ bareCands c

/-! ## Definitions following the specification's words

Each definition below is written from the specification text (not from the
source) and is used only to compare the specified behaviour with the embedded
source behaviour. -/

/-- Modelled from the spec's words (§4.4): split only at top-level commas,
tracking bracket/paren/brace depth. -/
def splitTopLevelCommas : Nat → List Char → List (List Char)
  | _, [] => [[]]
  | d, c :: rest =>
      if c = ',' && d = 0 then [] :: splitTopLevelCommas 0 rest
      else
        let d' := if c = '(' || c = '[' || c = lbrace then d + 1
          else if c = ')' || c = ']' || c = rbrace then d - 1
          else d
        match splitTopLevelCommas d' rest with
        | t :: ts => (c :: t) :: ts
        | [] => [[c]]

/-- The signature synthesizer as claim C5 describes it: identical to
`generateMethodSignature` except that the parameter split respects nesting. -/
def signatureWithDepthSplit (m : Method) : List Char :=
  let core :=
    if m.params = [] then []
    else
      List.intercalate ((", ").data)
        (((splitTopLevelCommas 0 m.params).map convertParam).filter (fun p => !p.isEmpty))
  m.name ++ ['('] ++ core ++ [')'] ++
    (if m.isAsync then (": Promise<any>").data else (": any").data)

/-- Modelled from the spec's words (§4.4): does the token contain a `=` at
bracket/paren/brace depth zero? -/
def hasTopLevelEq : Nat → List Char → Bool
  | _, [] => false
  | d, c :: rest =>
      if c = '=' && d = 0 then true
      else
        let d' := if c = '(' || c = '[' || c = lbrace then d + 1
          else if c = ')' || c = ']' || c = rbrace then d - 1
          else d
        hasTopLevelEq d' rest

/-- The per-token conversion as claim C6 describes it: `?` exactly for a
top-level `=`. -/
def convertParamTopEq (param : List Char) : List Char :=
  let trimmed := jsTrim param
  if trimmed = [] then []
  else if hasTopLevelEq 0 trimmed then
    jsTrim (trimmed.takeWhile (fun c => c ≠ '=')) ++ ("?: any").data
  else trimmed ++ (": any").data

/-- The signature synthesizer as claim C6 describes it: identical to
`generateMethodSignature` except that only a top-level `=` marks optionality. -/
def signatureWithTopEq (m : Method) : List Char :=
  let core :=
    if m.params = [] then []
    else
      List.intercalate ((", ").data)
        (((splitOnChar ',' m.params).map convertParamTopEq).filter (fun p => !p.isEmpty))
  m.name ++ ['('] ++ core ++ [')'] ++
    (if m.isAsync then (": Promise<any>").data else (": any").data)

/-- Modelled from the spec's words (C7): a `=` that is neither part of `=>`
nor inside parentheses (a default-parameter expression). -/
def hasBareAssign : Nat → List Char → Bool
  | _, [] => false
  | d, '=' :: '>' :: rest => hasBareAssign d rest
  | d, c :: rest =>
      if c = '(' then hasBareAssign (d + 1) rest
      else if c = ')' then hasBareAssign (d - 1) rest
      else if c = '=' && d = 0 then true
      else hasBareAssign d rest

/-- The deny-list as claim C7 states it: a default-parameter `=` (inside the
parameter list's parentheses) does not cause a skip. -/
def skipSpecClaim (line : List Char) : Bool :=
  hasPrefixL (("if").data) line || hasPrefixL (("for").data) line ||
  hasPrefixL (("while").data) line ||
  hasPrefixL (("catch").data) line || hasPrefixL (("try").data) line ||
  hasPrefixL (("switch").data) line ||
  hasBareAssign 0 line ||
  hasPrefixL (("//").data) line || hasPrefixL (("/*").data) line ||
  containsSub (("Object.assign").data) line ||
  containsSub (("console.").data) line ||
  (line.contains ':' && !(line.contains '('))

/-- The control-flow prefixes of the deny-list (amended C7 wording). -/
def controlFlowStarts : List (List Char) :=
  [("if").data, ("for").data, ("while").data, ("catch").data, ("try").data, ("switch").data]

/-- The comment-marker prefixes of the deny-list (amended C7 wording). -/
def commentStarts : List (List Char) := [("//").data, ("/*").data]

/-- The known non-method call substrings of the deny-list (amended C7). -/
def nonMethodMarkers : List (List Char) := [("Object.assign").data, ("console.").data]

/-- The deny-list as amended claim C7 states it: grouped into the prefix
lists, the `=`-without-`=>` test, the substring markers, and the
colon-without-parenthesis test. -/
def skipSpecAmended (line : List Char) : Bool :=
  controlFlowStarts.any (fun k => hasPrefixL k line) ||
  commentStarts.any (fun k => hasPrefixL k line) ||
  (line.contains '=' && !(containsSub (("=>").data) line)) ||
  nonMethodMarkers.any (fun k => containsSub k line) ||
  (line.contains ':' && !(line.contains '('))

/-- Modelled from the spec's words (§4.3, claim C2): one pass over the
candidate list keeping the first occurrence of each name. -/
def dedupByName : List Method → List Method
  | [] => []
  | m :: ms => m :: dedupByName (ms.filter (fun x => !(decide (x.name = m.name))))
termination_by l => l.length
decreasing_by
  exact Nat.lt_succ_of_le (List.length_filter_le _ ms)

/-- Bounded check that no position of `content` starts an anchor-pattern
match (claim C4's hypothesis, decidably). -/
def anchorFreeB (content : List Char) : Bool :=
  (List.range (content.length + 1)).all
    (fun i => !(anchorLit.isPrefixOf (content.drop i) &&
      (findClose false (content.drop (i + 32))).isSome))

/-! ## Concrete inputs used by the counterexamples and witnesses -/

/-- Claim C8's scenario source, exactly as the claim words it. -/
def srcC8 : List Char :=
  ("/**\n * Get an application setting.\n */\nasync function getSetting(key, defaultValue = null) \x7b\x7d").data

/-- The same scenario in the source bundle's method-shorthand form. -/
def srcC8A : List Char :=
  ("/**\n * Get an application setting.\n */\nasync getSetting(key, defaultValue = null) \x7b\n\x7d").data

/-- A source whose JSDoc block has no usable description line and whose
method is also found by the bare scanner. -/
def srcC3 : List Char := ("/** @param x */\nfoo(a) \x7b\n\x7d\nfoo(a) \x7b\n\x7d").data

/-- A source whose extracted parameter text spans a newline and starts a
line with `];`, poisoning the emitted block for the anchor regex. -/
def srcC1 : List Char := ("foo(a\n];b) \x7b").data

/-- A method definition whose parameter list contains `(` and `)` (a
function-expression default). -/
def srcC10 : List Char :=
  ("/** Do foo. */\nfoo(a = function() \x7b return 1 \x7d) \x7b").data

/-- A consumer file with one anchor span. -/
def consC1 : List Char :=
  ("// header\n// Sypnex API method definitions (auto-generated)\nconst sypnexApiMethods = [\n];\nrest\n").data

/-- A consumer file with two anchor spans. -/
def consTwo : List Char :=
  ("A\n// Sypnex API method definitions X\n];\nB\n// Sypnex API method definitions Y\n];\nC\n").data

/-! # Helper lemmas -/

theorem splitOnChar_append_cons (sep : Char) (t rest : List Char) (h : sep ∉ t) :
    splitOnChar sep (t ++ sep :: rest) = t :: splitOnChar sep rest := by
  induction t with
  | nil => simp [splitOnChar]
  | cons c t' ih =>
    have h1 : ¬ c = sep := by
      intro hc
      exact h (by simp [hc])
    have h2 : sep ∉ t' := fun hm => h (List.mem_cons_of_mem _ hm)
    simp only [List.cons_append, splitOnChar, if_neg h1, List.append_eq, ih h2]

theorem splitOnChar_of_not_mem (sep : Char) (t : List Char) (h : sep ∉ t) :
    splitOnChar sep t = [t] := by
  induction t with
  | nil => rfl
  | cons c t' ih =>
    have h1 : ¬ c = sep := by
      intro hc
      exact h (by simp [hc])
    have h2 : sep ∉ t' := fun hm => h (List.mem_cons_of_mem _ hm)
    simp only [splitOnChar, if_neg h1, ih h2]

theorem takeWhile_all_append (p : Char → Bool) (xs : List Char) (y : Char) (ys : List Char)
    (h : ∀ x ∈ xs, p x = true) (hy : p y = false) :
    (xs ++ y :: ys).takeWhile p = xs ∧ (xs ++ y :: ys).dropWhile p = y :: ys := by
  induction xs with
  | nil => simp [List.takeWhile, List.dropWhile, hy]
  | cons c cs ih =>
    have hc : p c = true := h c (List.mem_cons_self c cs)
    have ihh := ih (fun x hx => h x (List.mem_cons_of_mem c hx))
    simp [List.takeWhile, List.dropWhile, hc, ihh.1, ihh.2]

/-! # Claims C5 and C6: the signature synthesizer -/

/-- The descriptor used by the C5 counterexample: a default value containing
a comma inside an array literal. -/
def mC5 : Method := ⟨("foo").data, ("a = [1,2]").data, false, [], none⟩

/-- The descriptor used by the C6 counterexample: a destructuring parameter
whose `=` sits inside braces, not at top level. -/
def mC6 : Method := ⟨("f").data, ("\x7bx = 1\x7d").data, false, [], none⟩

/-- C5 counterexample: the synthesizer splits `a = [1,2]` at the comma inside
the array literal, so its output differs from the depth-aware split the claim
describes — the comma nested in brackets does start a new parameter token. -/
theorem C5_counterexample :
    generateMethodSignature mC5 = ("foo(a?: any, 2]: any): any").data ∧
    signatureWithDepthSplit mC5 = ("foo(a?: any): any").data ∧
    generateMethodSignature mC5 ≠ signatureWithDepthSplit mC5 := by decide

/-- C5 (amended): the synthesizer splits `rawParams` at every comma,
regardless of any surrounding parentheses, brackets or braces — each comma
ends the current token. -/
theorem C5_split_amended (t rest : List Char) (h : ',' ∉ t) :
    splitOnChar ',' (t ++ ',' :: rest) = t :: splitOnChar ',' rest := by
  induction t with
  | nil => simp [splitOnChar]
  | cons c t' ih =>
    have h1 : ¬ c = ',' := by
      intro hc
      exact h (by simp [hc])
    have h2 : ',' ∉ t' := fun hm => h (List.mem_cons_of_mem _ hm)
    simp only [List.cons_append, splitOnChar, if_neg h1, List.append_eq, ih h2]

/-- Witness for C5 (amended) at the counterexample's own raw parameter text. -/
theorem C5_witness :
    splitOnChar ',' (("a = [1").data ++ ',' :: ("2]").data) =
      [("a = [1").data, ("2]").data] := by
  rw [C5_split_amended (("a = [1").data) (("2]").data) (by decide)]
  rfl

/-- C6 counterexample: the token `\x7bx = 1\x7d` has no top-level `=` (the
`=` is inside braces), yet the synthesizer emits a `?`; the claim's
top-level-`=` rule predicts a plain `: any` token. -/
theorem C6_counterexample :
    generateMethodSignature mC6 = ("f(\x7bx?: any): any").data ∧
    signatureWithTopEq mC6 = ("f(\x7bx = 1\x7d: any): any").data ∧
    hasTopLevelEq 0 (jsTrim mC6.params) = false ∧
    generateMethodSignature mC6 ≠ signatureWithTopEq mC6 := by decide

/-- C6 (amended): for a single-token parameter list, the synthesizer emits
`name?: any` exactly when the trimmed token contains a `=` anywhere (at any
nesting depth, including the `=` of `=>`), and `token: any` otherwise. -/
theorem C6_optional_amended (n t d : List Char) (j : Option (List Char))
    (h1 : ',' ∉ t) (h2 : jsTrim t ≠ []) :
    ((jsTrim t).contains '=' = true →
      generateMethodSignature ⟨n, t, false, d, j⟩ =
        n ++ ['('] ++
          (jsTrim ((jsTrim t).takeWhile (fun c => c ≠ '=')) ++ ("?: any").data) ++
          [')'] ++ (": any").data) ∧
    ((jsTrim t).contains '=' = false →
      generateMethodSignature ⟨n, t, false, d, j⟩ =
        n ++ ['('] ++ (jsTrim t ++ (": any").data) ++ [')'] ++ (": any").data) := by
  have ht : t ≠ [] := by
    intro he
    exact h2 (by simp [he, jsTrim])
  have hsplit := splitOnChar_of_not_mem ',' t h1
  constructor <;> intro hc
  · have hc' : '=' ∈ jsTrim t := by simpa using hc
    simp [generateMethodSignature, ht, hsplit, convertParam, h2, hc',
      List.intercalate, List.append_assoc]
  · have hc' : '=' ∉ jsTrim t := by simpa using hc
    simp [generateMethodSignature, ht, hsplit, convertParam, h2, hc',
      List.intercalate, List.append_assoc]

/-- Witness for C6 (amended): both directions at concrete tokens. -/
theorem C6_witness :
    generateMethodSignature ⟨("f").data, ("a = 1").data, false, [], none⟩ =
      ("f(a?: any): any").data ∧
    generateMethodSignature ⟨("g").data, ("b").data, false, [], none⟩ =
      ("g(b: any): any").data := by
  constructor
  · exact ((C6_optional_amended (("f").data) (("a = 1").data) [] none (by decide)
      (by decide)).1 (by decide)).trans (by decide)
  · exact ((C6_optional_amended (("g").data) (("b").data) [] none (by decide)
      (by decide)).2 (by decide)).trans (by decide)

/-! # Claim C7: the bare scanner's deny-list -/

/-- The line used by the C7 counterexample: its only `=` is a
default-parameter assignment inside the parameter list. -/
def lineC7 : List Char := ("foo(a = 1) \x7b").data

/-- C7 counterexample: a line whose only `=` belongs to a default-parameter
expression is skipped by the scanner (it contains `=` and no `=>`), although
the claim's deny-list predicts it is not skipped. -/
theorem C7_counterexample :
    isSkippedLine lineC7 = true ∧ skipSpecClaim lineC7 = false := by decide

/-- C7 (amended): a line is skipped exactly when it begins with one of the
control-flow prefixes, begins with a comment marker, contains `=` without
containing `=>` anywhere (so a default-parameter `=` does cause a skip unless
an arrow appears on the same line), contains one of the known non-method call
substrings, or contains `:` without containing `(`. -/
theorem C7_denylist_amended : ∀ line, isSkippedLine line = skipSpecAmended line := by
  intro line
  simp only [isSkippedLine, skipSpecAmended, controlFlowStarts, commentStarts,
    nonMethodMarkers, List.any_cons, List.any_nil, Bool.or_false]
  rw [Bool.eq_iff_iff]
  simp only [Bool.or_eq_true, Bool.and_eq_true, Bool.not_eq_true']
  tauto

/-! # Claim C8: the concrete `getSetting` scenario -/

/-- C8 counterexample: on the claim's literal source (`async function
getSetting(...)`), the pipeline does not produce the claimed descriptor — the
JSDoc pattern cannot match across the `function` keyword and the deny-list
skips the definition line, so the only descriptor comes from a doc-comment
context line: `isAsync` is `false`, the description is the fixed-table text,
and the signature ends in `: any`. -/
theorem C8_counterexample :
    extractMethodsFromApi srcC8 =
      [⟨("getSetting").data, ("key, defaultValue = null").data, false,
        ("Get an application setting value").data, none⟩] ∧
    ¬ ∃ m, m ∈ extractMethodsFromApi srcC8 ∧ m.isAsync = true ∧
      m.description = ("Get an application setting.").data ∧
      generateMethodSignature m =
        ("getSetting(key: any, defaultValue?: any): Promise<any>").data := by decide

/-- C8 (amended): with the method written in the source bundle's shorthand
form `async getSetting(key, defaultValue = null) \x7b`, the pipeline produces
exactly the claimed descriptor and signature. -/
theorem C8_scenario_amended :
    extractMethodsFromApi srcC8A =
      [⟨("getSetting").data, ("key, defaultValue = null").data, true,
        ("Get an application setting.").data,
        some ("/**\n * Get an application setting.\n */").data⟩] ∧
    generateMethodSignature
        ⟨("getSetting").data, ("key, defaultValue = null").data, true,
          ("Get an application setting.").data,
          some ("/**\n * Get an application setting.\n */").data⟩ =
      ("getSetting(key: any, defaultValue?: any): Promise<any>").data := by decide

/-! # Claim C10: parameter lists containing parentheses -/

/-- C10 counterexample: the definition `foo(a = function() \x7b return 1 \x7d)
\x7b` has a `(` and `)` inside its parameter list, yet the JSDoc pass does
produce a descriptor for `foo` (with the parameter text truncated at the first
`)`), so the method is not silently absent. -/
theorem C10_counterexample :
    extractMethodsFromApi srcC10 =
      [⟨("foo").data, ("a = function(").data, false, ("Do foo.").data,
        some ("/** Do foo. */").data⟩] ∧
    ("foo").data ∈ (extractMethodsFromApi srcC10).map (fun m => m.name) := by decide

/-- C10 (amended): the patterns capture the parameter text as the run of
characters before the first `)`; a definition whose parameter list contains a
`)` yields a match exactly when the text after that first `)` begins with
optional whitespace and an opening brace (as with a function-expression
default), in which case the captured `rawParams` is the truncated prefix —
otherwise the pattern fails at that definition. -/
theorem C10_param_capture_amended (P1 suffix : List Char) (h : ')' ∉ P1) :
    matchParen ('(' :: (P1 ++ ')' :: suffix)) =
      match skipWs suffix with
      | c :: rest => if c = lbrace then some (P1, rest) else none
      | [] => none := by
  have hall : ∀ x ∈ P1, (fun c => decide (c ≠ ')')) x = true := by
    intro x hx
    simp only [decide_eq_true_eq]
    exact fun he => h (he ▸ hx)
  have hy : (fun c => decide (c ≠ ')')) ')' = false := by simp
  have htd := takeWhile_all_append (fun c => decide (c ≠ ')')) P1 ')' suffix hall hy
  simp only [matchParen, htd.1, htd.2]

/-- Witness for C10 (amended) at the counterexample's own parameter list. -/
theorem C10_witness :
    matchParen ('(' :: ((("a = function(").data) ++ ')' :: (" \x7b return 1 \x7d) \x7b").data)) =
      some (("a = function(").data, (" return 1 \x7d) \x7b").data) := by
  rw [C10_param_capture_amended (("a = function(").data) ((" \x7b return 1 \x7d) \x7b").data)
    (by decide)]
  decide

/-! # Anchor-patcher lemmas -/

theorem findClose_append (a : Bool) (xs ys : List Char) (k : Nat)
    (h : findClose a xs = some k) : findClose a (xs ++ ys) = some k := by
  induction xs generalizing a k with
  | nil => simp [findClose] at h
  | cons c cs ih =>
    simp only [findClose, List.cons_append, List.append_eq] at h ⊢
    by_cases hc : a = true ∧ c = ']' ∧ cs.head? = some ';'
    · obtain ⟨h1, h2, h3⟩ := hc
      have h3' : (cs ++ ys).head? = some ';' := by
        cases cs with
        | nil => simp at h3
        | cons d ds => simpa using h3
      rw [if_pos ⟨h1, h2, h3⟩] at h
      rw [if_pos ⟨h1, h2, h3'⟩]
      exact h
    · rw [if_neg hc] at h
      cases hm : findClose (isLineTerm c) cs with
      | none => rw [hm] at h; simp at h
      | some k' =>
        rw [hm] at h
        have hne : ¬(a = true ∧ c = ']' ∧ (cs ++ ys).head? = some ';') := by
          rintro ⟨h1, h2, h3⟩
          cases cs with
          | cons d ds => exact hc ⟨h1, h2, by simpa using h3⟩
          | nil => simp [findClose] at hm
        rw [if_neg hne, ih _ _ hm]
        simpa using h

theorem findClose_isSome_any (a : Bool) (xs : List Char)
    (h : (findClose false xs).isSome) : (findClose a xs).isSome := by
  cases xs with
  | nil => simp [findClose] at h
  | cons c cs =>
    simp only [findClose] at h ⊢
    by_cases hc : a = true ∧ c = ']' ∧ cs.head? = some ';'
    · rw [if_pos hc]
      rfl
    · rw [if_neg hc]
      have hcf : ¬(false = true ∧ c = ']' ∧ cs.head? = some ';') := by
        rintro ⟨h1, -⟩
        cases h1
      rw [if_neg hcf] at h
      exact h

theorem findClose_drop_earlier (d : Nat) (T : List Char) (j : Nat)
    (h : (findClose false (T.drop (j + d))).isSome) :
    (findClose false (T.drop j)).isSome := by
  induction d generalizing j with
  | zero => simpa using h
  | succ d ih =>
    have h' : (findClose false (T.drop (j + 1))).isSome := by
      apply ih (j + 1)
      rw [show j + 1 + d = j + (d + 1) by omega]
      exact h
    cases hj : T.drop j with
    | nil =>
      have hnil : T.drop (j + 1) = [] :=
        List.drop_eq_nil_iff.mpr (le_trans (List.drop_eq_nil_iff.mp hj) (Nat.le_succ j))
      rw [hnil] at h'
      simp [findClose] at h'
    | cons c cs =>
      have hcs : T.drop (j + 1) = cs := by
        have hdd := List.drop_drop 1 j T
        rw [hj] at hdd
        rw [show j + 1 = j + 1 from rfl, ← hdd]
        rfl
      rw [hcs] at h'
      simp only [findClose]
      by_cases hc : False = True ∧ c = ']' ∧ cs.head? = some ';'
      · exact absurd hc.1 (by simp)
      · have hcf : ¬(false = true ∧ c = ']' ∧ cs.head? = some ';') := by
          rintro ⟨h1, -⟩
          cases h1
        rw [if_neg hcf]
        have := findClose_isSome_any (isLineTerm c) cs h'
        cases hm : findClose (isLineTerm c) cs with
        | none => rw [hm] at this; simp at this
        | some k => rfl

theorem findAnchor_none (T : List Char)
    (h : ∀ i, ¬(anchorLit <+: T.drop i ∧ (findClose false (T.drop (i + 32))).isSome)) :
    findAnchor T = none := by
  induction T with
  | nil => rfl
  | cons c cs ih =>
    have hshift : ∀ i, ¬(anchorLit <+: cs.drop i ∧
        (findClose false (cs.drop (i + 32))).isSome) := by
      intro i hi
      apply h (i + 1)
      constructor
      · exact hi.1
      · rw [show i + 1 + 32 = (i + 32) + 1 by omega]
        exact hi.2
    simp only [findAnchor]
    by_cases hp : anchorLit.isPrefixOf (c :: cs)
    · rw [if_pos hp]
      cases hm : findClose false ((c :: cs).drop 32) with
      | some k =>
        exact absurd ⟨List.isPrefixOf_iff_prefix.mp hp, by rw [show (0:Nat) + 32 = 32 by omega, hm]; rfl⟩ (h 0)
      | none => rw [ih hshift]; rfl
    · rw [if_neg hp, ih hshift]
      rfl

/-! # Claim C4: missing anchor is a silent no-op -/

/-- C4: if no position of the consumer text starts a match of the anchor
pattern (the generated-block start comment through a line-initial `];`), the
patch step leaves the content byte-for-byte unchanged (and, being a total
function, raises no error). -/
theorem C4_anchor_noop (C b : List Char) (h : anchorFreeB C = true) :
    replaceFirst C b = C := by
  have hall : ∀ i, ¬(anchorLit <+: C.drop i ∧ (findClose false (C.drop (i + 32))).isSome) := by
    intro i
    by_cases hi : i ≤ C.length
    · have hx := (List.all_eq_true.mp h) i (by simp [List.mem_range]; omega)
      rintro ⟨hp, hs⟩
      have hpb : anchorLit.isPrefixOf (C.drop i) = true := List.isPrefixOf_iff_prefix.mpr hp
      simp [anchorFreeB, hpb, hs] at hx
    · rintro ⟨hp, -⟩
      have hdrop : C.drop i = [] := List.drop_eq_nil_iff.mpr (by omega)
      rw [hdrop] at hp
      exact absurd (List.prefix_nil.mp hp) (by decide)
  simp only [replaceFirst, findAnchor_none C hall]

/-- Witness for C4 at a concrete anchor-free consumer text. -/
theorem C4_witness :
    replaceFirst (("const x = 1;\nno anchor here\n").data) (("NEW").data) =
      (("const x = 1;\nno anchor here\n").data) :=
  C4_anchor_noop (("const x = 1;\nno anchor here\n").data) (("NEW").data) (by decide)

/-- Soundness of `findAnchor`: a returned pair `(s, l)` marks an anchor-regex
match at `s` of length `l`, and no earlier position starts a match. -/
theorem findAnchor_sound (T : List Char) (s l : Nat) (h : findAnchor T = some (s, l)) :
    anchorLit <+: T.drop s ∧ findClose false (T.drop (s + 32)) = some (l - 32) ∧ 32 ≤ l ∧
      ∀ i < s, ¬(anchorLit <+: T.drop i ∧ (findClose false (T.drop (i + 32))).isSome) := by
  induction T generalizing s l with
  | nil => simp [findAnchor] at h
  | cons c cs ih =>
    have hd2 : ∀ i : Nat, (c :: cs).drop (i + 1 + 32) = cs.drop (i + 32) := by
      intro i
      rw [show i + 1 + 32 = (i + 32) + 1 by omega]
      rfl
    simp only [findAnchor] at h
    by_cases hp : anchorLit.isPrefixOf (c :: cs)
    · rw [if_pos hp] at h
      cases hm : findClose false ((c :: cs).drop 32) with
      | some k =>
        rw [hm] at h
        simp only [Option.some.injEq, Prod.mk.injEq] at h
        obtain ⟨hs, hl⟩ := h
        refine ⟨?_, ?_, by omega, ?_⟩
        · rw [← hs]
          exact List.isPrefixOf_iff_prefix.mp hp
        · rw [← hs, ← hl, show (0 : Nat) + 32 = 32 from rfl,
            show 32 + k - 32 = k by omega]
          exact hm
        · intro i hi
          rw [← hs] at hi
          exact absurd hi (Nat.not_lt_zero i)
      | none =>
        rw [hm] at h
        cases ha : findAnchor cs with
        | none => rw [ha] at h; simp at h
        | some p =>
          obtain ⟨s', l'⟩ := p
          rw [ha] at h
          simp only [Option.map_some', Option.some.injEq, Prod.mk.injEq] at h
          obtain ⟨hs, hl⟩ := h
          obtain ⟨ih1, ih2, ih3, ih4⟩ := ih s' l' ha
          refine ⟨by rw [← hs]; exact ih1, ?_, by omega, ?_⟩
          · rw [← hs, ← hl, hd2 s']
            exact ih2
          · intro i hi
            rw [← hs] at hi
            match i, hi with
            | 0, _ =>
              rintro ⟨-, hsome⟩
              rw [show (0 : Nat) + 32 = 32 from rfl, hm] at hsome
              simp at hsome
            | j + 1, hj =>
              rintro ⟨hpre, hsome⟩
              rw [hd2 j] at hsome
              exact ih4 j (by omega) ⟨hpre, hsome⟩
    · rw [if_neg hp] at h
      cases ha : findAnchor cs with
      | none => rw [ha] at h; simp at h
      | some p =>
        obtain ⟨s', l'⟩ := p
        rw [ha] at h
        simp only [Option.map_some', Option.some.injEq, Prod.mk.injEq] at h
        obtain ⟨hs, hl⟩ := h
        obtain ⟨ih1, ih2, ih3, ih4⟩ := ih s' l' ha
        refine ⟨by rw [← hs]; exact ih1, ?_, by omega, ?_⟩
        · rw [← hs, ← hl, hd2 s']
          exact ih2
        · intro i hi
          rw [← hs] at hi
          match i, hi with
          | 0, _ =>
            rintro ⟨hpre, -⟩
            exact hp (List.isPrefixOf_iff_prefix.mpr hpre)
          | j + 1, hj =>
            rintro ⟨hpre, hsome⟩
            rw [hd2 j] at hsome
            exact ih4 j (by omega) ⟨hpre, hsome⟩

/-- Completeness of `findAnchor`: a position that starts a match, with no
earlier match start, is the one returned. -/
theorem findAnchor_complete (s : Nat) (T : List Char) (k : Nat)
    (hno : ∀ i < s, ¬(anchorLit <+: T.drop i ∧ (findClose false (T.drop (i + 32))).isSome))
    (hpre : anchorLit <+: T.drop s)
    (hcl : findClose false (T.drop (s + 32)) = some k) :
    findAnchor T = some (s, 32 + k) := by
  induction s generalizing T with
  | zero =>
    have hpre' : anchorLit <+: T := by simpa using hpre
    cases T with
    | nil => exact absurd (List.prefix_nil.mp hpre') (by decide)
    | cons c cs =>
      simp only [findAnchor]
      rw [if_pos (List.isPrefixOf_iff_prefix.mpr hpre')]
      rw [show (c :: cs).drop 32 = (c :: cs).drop (0 + 32) from rfl, hcl]
  | succ s ih =>
    cases T with
    | nil =>
      rw [List.drop_of_length_le (by simp)] at hpre
      exact absurd (List.prefix_nil.mp hpre) (by decide)
    | cons c cs =>
      have hd2 : ∀ i : Nat, (c :: cs).drop (i + 1 + 32) = cs.drop (i + 32) := by
        intro i
        rw [show i + 1 + 32 = (i + 32) + 1 by omega]
        rfl
      have hsome32 : (findClose false ((c :: cs).drop 32)).isSome := by
        apply findClose_drop_earlier (s + 1) (c :: cs) 32
        rw [show 32 + (s + 1) = s + 1 + 32 by omega, hcl]
        rfl
      have hnp : ¬ anchorLit.isPrefixOf (c :: cs) := by
        intro hb
        exact hno 0 (Nat.succ_pos s) ⟨List.isPrefixOf_iff_prefix.mp hb, hsome32⟩
      simp only [findAnchor]
      rw [if_neg hnp]
      rw [ih cs ?_ hpre ?_]
      · rfl
      · intro i hi
        rintro ⟨hpre', hsome'⟩
        refine hno (i + 1) (by omega) ⟨hpre', ?_⟩
        rw [hd2 i]
        exact hsome'
      · rw [← hd2 s]
        exact hcl

/-- `anchorLit` has no nontrivial border: no proper nonempty suffix equals a
prefix.  Needed to rule out anchor occurrences straddling the boundary
between untouched prefix text and an inserted block. -/
theorem anchorLit_no_border :
    ∀ k ∈ List.range 31, anchorLit.drop (k + 1) ≠ anchorLit.take (31 - k) := by decide

/-- No `$` in the replacement text means JavaScript's replacement-string
processing is the identity. -/
theorem processRepl_no_dollar (x y z b : List Char) (h : b.contains dollarC = false) :
    processRepl x y z b = b := by
  induction b with
  | nil => rfl
  | cons c rest ih =>
    simp only [List.contains_cons, Bool.or_eq_false_iff, beq_eq_false_iff_ne, ne_eq] at h
    have hc : ¬ c = dollarC := fun hcc => h.1 hcc.symm
    have ht := ih h.2
    cases rest with
    | nil => simp [processRepl, hc]
    | cons d rest' => simp [processRepl, hc, ht]

/-! # Claim C9: only the first anchor span is replaced -/

/-- C9: when the consumer text has a first anchor match at `(s, l)` and at
least one further match after it, the patch rewrites only the span
`[s, s + l)`: the text before `s` and the whole text from `s + l` on (hence
every later matching span) are byte-for-byte unchanged, and no position
before `s` starts a match. -/
theorem C9_first_anchor_only (C b : List Char) (s l : Nat)
    (h : findAnchor C = some (s, l))
    (_htwo : ∃ j, anchorLit <+: (C.drop (s + l)).drop j ∧
      (findClose false ((C.drop (s + l)).drop (j + 32))).isSome) :
    (replaceFirst C b).take s = C.take s ∧
    (replaceFirst C b).drop
        (s + (processRepl (C.take s) ((C.drop s).take l) (C.drop (s + l)) b).length) =
      C.drop (s + l) ∧
    ∀ i < s, ¬(anchorLit <+: C.drop i ∧ (findClose false (C.drop (i + 32))).isSome) := by
  obtain ⟨hpre, hcl, hl32, hleft⟩ := findAnchor_sound C s l h
  have hsC : s < C.length := by
    by_contra hge
    rw [List.drop_of_length_le (by omega)] at hpre
    exact absurd (List.prefix_nil.mp hpre) (by decide)
  have hlen_take : (C.take s).length = s := by
    rw [List.length_take]
    omega
  simp only [replaceFirst, h]
  refine ⟨?_, ?_, hleft⟩
  · rw [List.append_assoc]
    exact List.take_left' hlen_take
  · apply List.drop_left'
    rw [List.length_append, hlen_take]

set_option maxRecDepth 1000000 in
/-- Witness for C9 on a consumer text with two anchor spans. -/
theorem C9_witness :
    (replaceFirst consTwo (("NEW").data)).take 2 = consTwo.take 2 ∧
    (replaceFirst consTwo (("NEW").data)).drop
        (2 + (processRepl (consTwo.take 2) ((consTwo.drop 2).take 37) (consTwo.drop 39)
          (("NEW").data)).length) =
      consTwo.drop 39 := by
  have h := C9_first_anchor_only consTwo (("NEW").data) 2 37 (by decide)
    ⟨3, by decide, by decide⟩
  exact ⟨h.1, h.2.1⟩

/-! # Claim C1: idempotence of the pipeline -/

set_option maxRecDepth 1000000 in
/-- C1 counterexample: for the source `srcC1` the extracted parameter text
spans a newline and begins a line with `];`, so the emitted block contains a
line-initial `];` before its final one; the second pipeline run then matches
the anchor regex against a shorter span inside the freshly written block and
the consumer content changes again. -/
theorem C1_counterexample :
    runPipeline srcC1 (runPipeline srcC1 consC1) ≠ runPipeline srcC1 consC1 := by
  decide

/-- C1 (amended): if the emitted block starts with the anchor literal, its
only line-initial `];` is at its very end, and it contains no `$`, then a
second pipeline run on the unchanged source produces byte-identical consumer
content. -/
theorem C1_idempotent_amended (S C b : List Char)
    (hb : b = generateExtensionCode (extractMethodsFromApi S))
    (hpre : anchorLit.isPrefixOf b = true)
    (hclose : findClose false (b.drop 32) = some (b.length - 32))
    (hdollar : b.contains dollarC = false) :
    runPipeline S (runPipeline S C) = runPipeline S C := by
  have hpre' : anchorLit <+: b := List.isPrefixOf_iff_prefix.mp hpre
  have hb32 : 32 ≤ b.length := by
    have hle := List.IsPrefix.length_le hpre'
    have h32 : anchorLit.length = 32 := by decide
    omega
  have hrepl : ∀ x y z : List Char, processRepl x y z b = b :=
    fun x y z => processRepl_no_dollar x y z b hdollar
  have hRun : ∀ D : List Char, runPipeline S D = replaceFirst D b := by
    intro D
    rw [runPipeline, updateExtensionFile, hb]
  rw [hRun, hRun C]
  cases hA : findAnchor C with
  | none => simp only [replaceFirst, hA]
  | some p =>
    obtain ⟨s, l⟩ := p
    obtain ⟨hpreC, hclC, hl32, hleftC⟩ := findAnchor_sound C s l hA
    have hsC : s < C.length := by
      by_contra hge
      rw [List.drop_of_length_le (by omega)] at hpreC
      exact absurd (List.prefix_nil.mp hpreC) (by decide)
    have hlen_take : (C.take s).length = s := by
      rw [List.length_take]
      omega
    have hRF1 : replaceFirst C b = C.take s ++ b ++ C.drop (s + l) := by
      simp only [replaceFirst, hA, hrepl]
    set R1 := C.take s ++ b ++ C.drop (s + l) with hR1def
    have hdropR1 : R1.drop s = b ++ C.drop (s + l) := by
      rw [hR1def, List.append_assoc]
      exact List.drop_left' hlen_take
    have hpreR1 : anchorLit <+: R1.drop s := by
      rw [hdropR1]
      exact hpre'.trans (List.prefix_append b _)
    have hclR1 : findClose false (R1.drop (s + 32)) = some (b.length - 32) := by
      have h1 : R1.drop (s + 32) = b.drop 32 ++ C.drop (s + l) := by
        rw [← List.drop_drop, hdropR1]
        exact List.drop_append_of_le_length hb32
      rw [h1]
      exact findClose_append _ _ _ _ hclose
    have hnoR1 : ∀ i < s,
        ¬(anchorLit <+: R1.drop i ∧ (findClose false (R1.drop (i + 32))).isSome) := by
      intro i hi
      rintro ⟨hpI, -⟩
      have hdropI : R1.drop i = (C.take s).drop i ++ (b ++ C.drop (s + l)) := by
        rw [hR1def, List.append_assoc]
        exact List.drop_append_of_le_length (by omega)
      have hlenI : ((C.take s).drop i).length = s - i := by
        rw [List.length_drop, hlen_take]
      rw [hdropI] at hpI
      have hXtake : (C.take s).drop i = (C.drop i).take (s - i) := by
        rw [List.drop_take]
      by_cases hsplit : 32 ≤ s - i
      · -- the literal lies entirely inside the preserved prefix of `C`
        have h32' : anchorLit.length = 32 := by decide
        have ha_take : anchorLit = (((C.take s).drop i) ++ (b ++ C.drop (s + l))).take 32 := by
          have := List.prefix_iff_eq_take.mp hpI
          rwa [h32'] at this
        have hXpre : anchorLit <+: (C.take s).drop i := by
          rw [ha_take, List.take_append_of_le_length (by omega)]
          exact List.take_prefix 32 _
        have hpc : anchorLit <+: C.drop i := by
          rw [hXtake] at hXpre
          exact hXpre.trans (List.take_prefix _ _)
        have hclose_i : (findClose false (C.drop (i + 32))).isSome := by
          apply findClose_drop_earlier (s - i) C (i + 32)
          rw [show i + 32 + (s - i) = s + 32 by omega, hclC]
          rfl
        exact hleftC i hi ⟨hpc, hclose_i⟩
      · -- the literal would straddle the boundary: impossible, no border
        have hr1 : 0 < s - i := by omega
        have hr2 : s - i < 32 := by omega
        have h32' : anchorLit.length = 32 := by decide
        have ha_take : anchorLit = (((C.take s).drop i) ++ (b ++ C.drop (s + l))).take 32 := by
          have := List.prefix_iff_eq_take.mp hpI
          rwa [h32'] at this
        rw [List.take_append_eq_append_take, hlenI,
          List.take_of_length_le (by omega)] at ha_take
        -- anchorLit = X ++ (b ++ post).take (32 - (s - i))
        have hdropA : anchorLit.drop (s - i) = (b ++ C.drop (s + l)).take (32 - (s - i)) := by
          rw [ha_take]
          exact List.drop_left' hlenI
        have hbtake : (b ++ C.drop (s + l)).take (32 - (s - i)) =
            anchorLit.take (32 - (s - i)) := by
          have hb_eq : b.take 32 = anchorLit := by
            have := List.prefix_iff_eq_take.mp hpre'
            rw [h32'] at this
            exact this.symm
          rw [List.take_append_of_le_length (by omega), ← hb_eq, List.take_take,
            min_eq_left (by omega)]
        have hfinal : anchorLit.drop (s - i) = anchorLit.take (32 - (s - i)) := by
          rw [hdropA, hbtake]
        have hk := anchorLit_no_border (s - i - 1) (by simp [List.mem_range]; omega)
        rw [show s - i - 1 + 1 = s - i by omega,
          show 31 - (s - i - 1) = 32 - (s - i) by omega] at hk
        exact hk hfinal
    have hAnchorR1 : findAnchor R1 = some (s, 32 + (b.length - 32)) :=
      findAnchor_complete s R1 (b.length - 32) hnoR1 hpreR1 hclR1
    rw [hRF1]
    simp only [replaceFirst, hAnchorR1, hrepl]
    rw [show 32 + (b.length - 32) = b.length by omega]
    have htake : R1.take s = C.take s := by
      rw [hR1def, List.append_assoc]
      exact List.take_left' hlen_take
    have hdrop : R1.drop (s + b.length) = C.drop (s + l) := by
      rw [hR1def]
      apply List.drop_left'
      rw [List.length_append, hlen_take]
    rw [htake, hdrop]

set_option maxRecDepth 1000000 in
/-- Witness for C1 (amended) on the `getSetting` source and a standard
consumer file: the three side conditions hold for the emitted block. -/
theorem C1_witness :
    runPipeline srcC8A (runPipeline srcC8A consC1) = runPipeline srcC8A consC1 :=
  C1_idempotent_amended srcC8A consC1
    (generateExtensionCode (extractMethodsFromApi srcC8A)) rfl
    (by decide) (by decide) (by decide)

/-! # Merger/deduplicator lemmas (claims C2 and C3) -/

/-- The line loop of the bare pass is the guarded fold over the flattened
per-line candidate stream. -/
theorem lineFold_eq (lines : List (List Char)) (idxs : List Nat) (acc : List Method) :
    idxs.foldl (fun a i =>
      if isSkippedLine (jsTrim (lines.getD i [])) then a
      else (scanSimple (contextAt lines i)).foldl
        (fun a2 cm => pushIfValid a2 (mkBareMethod cm)) a) acc
    = ((idxs.map (lineCands lines)).flatten).foldl pushIfValid acc := by
  induction idxs generalizing acc with
  | nil => rfl
  | cons i is ih =>
    simp only [List.foldl_cons, List.map_cons, List.flatten_cons, List.foldl_append]
    rw [ih]
    congr 1
    rw [lineCands]
    by_cases hs : isSkippedLine (jsTrim (lines.getD i []))
    · rw [if_pos hs, if_pos hs]
      rfl
    · rw [if_neg hs, if_neg hs, List.foldl_map]

/-- `extractMethodsFromApi` is one guarded fold over the candidate stream
(JSDoc candidates first, then bare candidates). -/
theorem extract_eq_fold (c : List Char) :
    extractMethodsFromApi c = (allCandidates c).foldl pushIfValid [] := by
  simp only [extractMethodsFromApi, allCandidates, jsdocCands, bareCands,
    List.foldl_append, List.foldl_map]
  rw [lineFold_eq]

/-- The guarded fold keeps the first valid occurrence of each name: it equals
the spec-worded first-occurrence deduplication of the filtered stream. -/
theorem foldl_pushIfValid_eq (l : List Method) (acc : List Method) :
    l.foldl pushIfValid acc =
      acc ++ dedupByName (l.filter (fun m => validName m.name &&
        !(acc.any (fun d => decide (d.name = m.name))))) := by
  induction l generalizing acc with
  | nil => simp [dedupByName]
  | cons m ms ih =>
    simp only [List.foldl_cons, List.filter_cons]
    by_cases hc : (validName m.name && !(acc.any (fun d => decide (d.name = m.name)))) = true
    · rw [if_pos hc]
      have hpush : pushIfValid acc m = acc ++ [m] := by
        simp only [pushIfValid, if_pos hc]
      rw [hpush, ih, dedupByName, List.append_assoc, List.singleton_append]
      congr 2
      rw [List.filter_filter]
      apply congrArg
      apply List.filter_congr
      intro x _
      by_cases hxm : x.name = m.name
      · simp [List.any_append, hxm]
      · have h1 : decide (m.name = x.name) = false := by
          simp only [decide_eq_false_iff_not]
          exact fun h => hxm h.symm
        have h2 : decide (x.name = m.name) = false := by
          simp only [decide_eq_false_iff_not]
          exact hxm
        simp [List.any_append, h1, h2]
    · rw [if_neg hc]
      have hpush : pushIfValid acc m = acc := by
        simp only [pushIfValid, if_neg hc]
      rw [hpush, ih]

/-- `extractMethodsFromApi` equals first-occurrence deduplication of the
valid candidates. -/
theorem extract_eq_dedup (c : List Char) :
    extractMethodsFromApi c =
      dedupByName ((allCandidates c).filter (fun m => validName m.name)) := by
  rw [extract_eq_fold, foldl_pushIfValid_eq]
  rw [List.nil_append]
  congr 1
  apply List.filter_congr
  intro x _
  simp

/-- Every element of the deduplicated list comes from the input list. -/
theorem dedupByName_subset (l : List Method) : ∀ x ∈ dedupByName l, x ∈ l := by
  induction l using dedupByName.induct with
  | case1 =>
    intro x hx
    rw [dedupByName] at hx
    exact absurd hx (List.not_mem_nil x)
  | case2 m ms ih =>
    intro x hx
    rw [dedupByName] at hx
    rcases List.mem_cons.mp hx with h | h
    · exact h ▸ List.mem_cons_self m ms
    · exact List.mem_cons_of_mem m (List.mem_of_mem_filter (ih x h))

/-- The deduplicated list has pairwise-distinct names. -/
theorem dedupByName_names_nodup (l : List Method) :
    ((dedupByName l).map (fun m => m.name)).Nodup := by
  induction l using dedupByName.induct with
  | case1 =>
    rw [dedupByName]
    simp
  | case2 m ms ih =>
    rw [dedupByName]
    simp only [List.map_cons, List.nodup_cons]
    refine ⟨?_, ih⟩
    intro hmem
    obtain ⟨x, hx, hxe⟩ := List.mem_map.mp hmem
    have hxf := dedupByName_subset _ x hx
    have := List.of_mem_filter hxf
    simp only [Bool.not_eq_true', decide_eq_false_iff_not] at this
    exact this hxe

/-- C2: no two descriptors in the final merged list share a `name`, and the
list is exactly the first-occurrence deduplication (JSDoc pass first, then
bare pass) of the valid candidate stream. -/
theorem C2_unique_names (c : List Char) :
    ((extractMethodsFromApi c).map (fun m => m.name)).Nodup ∧
    extractMethodsFromApi c =
      dedupByName ((allCandidates c).filter (fun m => validName m.name)) := by
  refine ⟨?_, extract_eq_dedup c⟩
  rw [extract_eq_dedup]
  exact dedupByName_names_nodup _

/-- A `find?` result in the accumulator survives the guarded fold. -/
theorem find?_foldl_stable (l : List Method) (acc : List Method)
    (p : Method → Bool) (x : Method) (h : acc.find? p = some x) :
    (l.foldl pushIfValid acc).find? p = some x := by
  induction l generalizing acc with
  | nil => exact h
  | cons m ms ih =>
    simp only [List.foldl_cons]
    apply ih
    rw [pushIfValid]
    split
    · rw [List.find?_append, h]
      rfl
    · exact h

/-- The first candidate bearing a valid name becomes, and remains, the
`find?` result of the guarded fold. -/
theorem find?_fold_first (l : List Method) (acc : List Method) (n : List Char) (m : Method)
    (hv : validName n = true)
    (hacc : acc.find? (fun d => decide (d.name = n)) = none)
    (hfind : l.find? (fun d => decide (d.name = n)) = some m) :
    (l.foldl pushIfValid acc).find? (fun d => decide (d.name = n)) = some m := by
  induction l generalizing acc with
  | nil => simp at hfind
  | cons m0 ms ih =>
    by_cases hp : m0.name = n
    · have hm0 : m = m0 := by
        rw [List.find?_cons_of_pos ms (by simp [hp])] at hfind
        exact (Option.some.injEq _ _ ▸ hfind).symm
      have hany : acc.any (fun d => decide (d.name = m0.name)) = false := by
        rw [List.any_eq_false]
        intro d hd
        have := (List.find?_eq_none.mp hacc) d hd
        simp only [decide_eq_true_eq] at this ⊢
        rw [hp]
        exact this
      have hpush : pushIfValid acc m0 = acc ++ [m0] := by
        rw [pushIfValid, if_pos]
        rw [hany, hp]
        simp [hv]
      simp only [List.foldl_cons, hpush]
      apply find?_foldl_stable
      rw [List.find?_append, hacc]
      simp [hp, hm0]
    · have hfind' : ms.find? (fun d => decide (d.name = n)) = some m := by
        rwa [List.find?_cons_of_neg ms (by simp [hp])] at hfind
      simp only [List.foldl_cons]
      apply ih _ _ hfind'
      rw [pushIfValid]
      split
      · rw [List.find?_append, hacc]
        simp [hp]
      · exact hacc

/-- C3 counterexample: in `srcC3` the name `foo` is produced by both
extraction passes, the final descriptor is the JSDoc-pass one, yet its
description equals the generic fallback `generateMethodDescription` — the
JSDoc block `/** @param x */` yields no usable description line. -/
theorem C3_counterexample :
    ("foo").data ∈ (jsdocCands srcC3).map (fun m => m.name) ∧
    ("foo").data ∈ (bareCands srcC3).map (fun m => m.name) ∧
    (extractMethodsFromApi srcC3).find? (fun d => decide (d.name = ("foo").data)) =
      some ⟨("foo").data, ("a").data, false, ("foo method from Sypnex API").data,
        some ("/** @param x */").data⟩ ∧
    generateMethodDescription (("foo").data) = ("foo method from Sypnex API").data := by
  decide

/-- C3 (amended): for every method name with a JSDoc-pass candidate (in
particular every name matched by both passes), the descriptor in the final
list is the first JSDoc-pass candidate of that name — it carries the captured
doc block, its parameters and async flag come from the JSDoc match, and its
description is the jsdoc-derived one whenever the block yields a usable
description line, the shared generic fallback otherwise. -/
theorem C3_priority_amended (c : List Char) (n : List Char) (m : Method)
    (hv : validName n = true)
    (hfind : (jsdocCands c).find? (fun d => decide (d.name = n)) = some m) :
    (extractMethodsFromApi c).find? (fun d => decide (d.name = n)) = some m ∧
    m ∈ jsdocCands c ∧ m.jsdoc.isSome := by
  have hm : m ∈ jsdocCands c := List.mem_of_find?_eq_some hfind
  refine ⟨?_, hm, ?_⟩
  · rw [extract_eq_fold, allCandidates, List.foldl_append]
    apply find?_foldl_stable
    exact find?_fold_first _ [] n m hv rfl hfind
  · obtain ⟨jm, -, hjm⟩ := List.mem_map.mp hm
    rw [← hjm, mkJsdocMethod]
    rfl

set_option maxRecDepth 1000000 in
/-- Witness for C3 (amended) on the `getSetting` source, whose name is found
by both passes (the bare pass rediscovers it in the doc-comment context). -/
theorem C3_witness :
    (extractMethodsFromApi srcC8A).find?
        (fun d => decide (d.name = ("getSetting").data)) =
      some ⟨("getSetting").data, ("key, defaultValue = null").data, true,
        ("Get an application setting.").data,
        some ("/**\n * Get an application setting.\n */").data⟩ :=
  (C3_priority_amended srcC8A (("getSetting").data)
    ⟨("getSetting").data, ("key, defaultValue = null").data, true,
      ("Get an application setting.").data,
      some ("/**\n * Get an application setting.\n */").data⟩
    (by decide) (by decide)).1

end UpdateApi
